import Mathlib

/-!
Verification of the nanobrowser CLI core: the plan-act orchestration loop
(`cli/planner-run.ts`), the DOM snapshot indexer (`constructDomTree` in
`cli/dom/service-cli.ts`), and the CLI browser driver adapter
(`CliBrowserContext`, `CliPage`).

Each TypeScript function relevant to the claims is shallowly embedded as an
executable Lean definition; asynchronous external effects (the language model,
the puppeteer browser) appear as explicit outcome values consumed by the
embedded control flow.
-/

/-! ## CliPage scrolling (`page-cli.ts`, `scrollDown` / `scrollUp`)

The source:
```
async scrollDown(amount?: number) {
  if (amount) await this.p.evaluate(amt => window.scrollBy(0, amt), amount);
  else await this.p.evaluate(() => window.scrollBy(0, window.innerHeight));
}
```
`window.scrollBy` is the only effect; we embed the vertical delta passed to it.
A JavaScript `if (amount)` tests number truthiness: `undefined` (absent) and
`0` are both falsy. -/

/-- Vertical delta handed to `window.scrollBy` by `CliPage.scrollDown`.
`none` models an omitted `amount` argument. -/
def scrollDownDelta (innerHeight : Int) (amount : Option Int) : Int :=
  match amount with
  | some a => if a = 0 then innerHeight else a
  | none => innerHeight

/-- Vertical delta handed to `window.scrollBy` by `CliPage.scrollUp`. -/
def scrollUpDelta (innerHeight : Int) (amount : Option Int) : Int :=
  match amount with
  | some a => if a = 0 then -innerHeight else -a
  | none => -innerHeight

/-! ## CliBrowserContext tab lifecycle (`context-cli.ts`)

The adapter keeps `pages : PuppeteerPage[]` and `currentIdx : number`.  We
model page handles as natural numbers.  The embedded operations follow the
source bodies of `openTab`, `switchTab`, `closeTab`, `getTabInfos`; the
`ensure()` preamble (browser launch) establishes a state with at least one
page and `currentIdx = 0`, which we take as the well-formedness hypothesis. -/

/-- State of `CliBrowserContext`: the open-page list and the current index. -/
structure TabsState where
  pages : List Nat
  currentIdx : Nat
deriving DecidableEq, Repr

/-- JavaScript `Array.prototype.splice(start, 1)`: a negative `start` counts
from the end (clamped at 0), a `start` past the end removes nothing. -/
def spliceRemoveOne (l : List Nat) (start : Int) : List Nat :=
  let s0 : Nat := if start < 0 then (l.length + start).toNat else start.toNat
  l.take s0 ++ l.drop (s0 + 1)

/-- `CliBrowserContext.openTab`: pushes the new page and makes it current. -/
def openTab (s : TabsState) (p : Nat) : TabsState :=
  { pages := s.pages ++ [p], currentIdx := s.pages.length }

/-- `CliBrowserContext.switchTab`: `idx = tabId - 1`; throws `Invalid tab id`
when `idx < 0 || idx >= pages.length`, else sets `currentIdx`. -/
def switchTab (s : TabsState) (tabId : Nat) : Except String TabsState :=
  let idx : Int := (tabId : Int) - 1
  if idx < 0 ∨ (s.pages.length : Int) ≤ idx then .error "Invalid tab id"
  else .ok { pages := s.pages, currentIdx := tabId - 1 }

/-- `CliBrowserContext.closeTab`: `idx = tabId - 1`; closes `pages[idx]` when
it exists, unconditionally splices index `idx`, then clamps `currentIdx` into
the remaining list.  There is no throwing path. -/
def closeTab (s : TabsState) (tabId : Nat) : TabsState :=
  let idx : Int := (tabId : Int) - 1
  let pages := spliceRemoveOne s.pages idx
  let ci := if pages.length ≤ s.currentIdx then pages.length - 1 else s.currentIdx
  { pages := pages, currentIdx := ci }

/-- `CliBrowserContext.getTabInfos`: ids are `position + 1` in the page list. -/
def getTabInfos (s : TabsState) : List (Nat × Nat) :=
  (List.range s.pages.length).map fun i => (i + 1, s.pages.getD i 0)

/-- The tab id under which an open page handle is currently addressed:
one plus its position in the page list. -/
def tabIdOf (s : TabsState) (p : Nat) : Option Nat :=
  (s.pages.indexOf? p).map (· + 1)

/-! ## Sanity examples for the tab model -/

example : closeTab ⟨[10, 20, 30], 2⟩ 1 = ⟨[20, 30], 1⟩ := by decide
example : closeTab ⟨[10, 20], 0⟩ 0 = ⟨[10], 0⟩ := by decide
example : closeTab ⟨[10, 20], 1⟩ 5 = ⟨[10, 20], 1⟩ := by decide
example : switchTab ⟨[10, 20], 0⟩ 0 = .error "Invalid tab id" := rfl
example : tabIdOf ⟨[10, 20], 0⟩ 20 = some 2 := by decide

/-! ## Action payload normalization (`planner-run.ts`, patched `doMultiAction`)

The source (lines 320-331 of `cli/planner-run.ts`):
```
let actions: Record<string, unknown>[] = [];
if (Array.isArray(response.action)) {
  actions = response.action.filter(it => it !== null);
} else if (typeof response.action === 'string') {
  try { actions = JSON.parse(response.action); }
  catch { throw new Error('Invalid action output format'); }
} else if (response.action) {
  actions = [response.action];
}
```
We embed JavaScript values as `JsVal`; `JSON.parse` is the platform primitive,
passed in as an oracle `parse : String -> Option JsVal` (`none` = parse
throws).  When a string parses to a non-array value the later `for..of`
iteration misbehaves (a TypeError for non-iterables), which is distinct from
the `Invalid action output format` error; we record that case as
`nonListParse`. -/

/-- A JavaScript runtime value, as far as the normalization code inspects it. -/
inductive JsVal where
  | null
  | undef
  | bool (b : Bool)
  | num (n : Int)
  | str (s : String)
  | obj (fields : List (String × JsVal))
  | arr (elems : List JsVal)
deriving Repr

/-- JavaScript truthiness on `JsVal` (`NaN` is not modelled). -/
def JsVal.truthy : JsVal → Bool
  | .null => false
  | .undef => false
  | .bool b => b
  | .num n => n ≠ 0
  | .str s => s ≠ ""
  | .obj _ => true
  | .arr _ => true

/-- The `it !== null` test used by the array branch filter. -/
def JsVal.isNotNull : JsVal → Bool
  | .null => false
  | _ => true

/-- Outcome of the normalization prefix of `doMultiAction`. -/
inductive NormOut where
  | ok (actions : List JsVal)
  | invalidFormat
  | nonListParse (v : JsVal)
deriving Repr

/-- The normalization prefix of the patched `doMultiAction`, deciding the
internal action list from `response.action`.  `parse` is the `JSON.parse`
oracle. -/
def normalizeActions (parse : String → Option JsVal) (action : JsVal) : NormOut :=
  match action with
  | .arr xs => .ok (xs.filter JsVal.isNotNull)
  | .str s =>
      match parse s with
      | none => .invalidFormat
      | some (.arr xs) => .ok xs
      | some v => .nonListParse v
  | v => if v.truthy then .ok [v] else .ok []

/-- An emitted action object: an object with exactly one key. -/
def JsVal.isSingleKeyObj : JsVal → Bool
  | .obj [_] => true
  | _ => false

example : normalizeActions (fun _ => none) .null = .ok [] := rfl
example : normalizeActions (fun _ => none) (.str "oops") = .invalidFormat := rfl
example :
    normalizeActions (fun _ => none) (.obj [("click", .obj [])]) =
      .ok [.obj [("click", .obj [])]] := rfl

/-! ## Batch execution (`planner-run.ts`, patched `doMultiAction`, lines 344-363)

The source executes the normalized actions sequentially:
```
for (const action of actions) {
  const name = Object.keys(action)[0];
  const args = action[name];
  try {
    if (this.context.paused || this.context.stopped) return results;
    const inst = this.actionRegistry.getAction(name);
    if (!inst) throw new Error(`Action ... not exists`);
    const res = await inst.call(args);
    if (res === undefined) throw new Error(`Action ... returned undefined`);
    results.push(res);
    if (this.context.paused || this.context.stopped) return results;
    await new Promise(r => setTimeout(r, 800));
  } catch (error) {
    errCount++;
    results.push(new ActionResult(error: ..., includeInMemory: true));
    if (errCount > 3) throw new Error('Too many errors in actions');
  }
}
```
Each action execution is an external effect; its outcome (a produced result,
or any thrown error — unknown action name, undefined return, or a runtime
failure inside the action — all land in the same catch) is an `ActOutcome`.
The paused/stopped flags are modelled as one static boolean `ps`: they can
only change at a suspension point, and with a static value the second check
after a successful push is unreachable when the first passed. -/

/-- Outcome of executing one action against the registry and browser. -/
inductive ActOutcome where
  | ok (r : Nat)
  | err (msg : String)
deriving DecidableEq, Repr

/-- One entry of the `results` array: a pushed action result, or the
`ActionResult` built in the catch with `includeInMemory: true`. -/
inductive BatchItem where
  | res (r : Nat)
  | errRes (msg : String) (includeInMemory : Bool)
deriving DecidableEq, Repr

/-- The result entry a given outcome contributes. -/
def ActOutcome.toItem : ActOutcome → BatchItem
  | .ok r => .res r
  | .err m => .errRes m true

/-- Whether an outcome is an action-level error. -/
def ActOutcome.isErr : ActOutcome → Bool
  | .ok _ => false
  | .err _ => true

/-- The execution loop of the patched `doMultiAction`: returns the `results`
array as built, the thrown error (if the batch aborted), and the number of
actions that were actually attempted. -/
def doMultiActionExec (ps : Bool) (errCount : Nat) :
    List ActOutcome → List BatchItem × Option String × Nat
  | [] => ([], none, 0)
  | o :: rest =>
    if ps then ([], none, 0)
    else
      match o with
      | .ok r =>
          let p := doMultiActionExec ps errCount rest
          (.res r :: p.1, p.2.1, p.2.2 + 1)
      | .err m =>
          let ec := errCount + 1
          if 3 < ec then ([.errRes m true], some "Too many errors in actions", 1)
          else
            let p := doMultiActionExec ps ec rest
            (.errRes m true :: p.1, p.2.1, p.2.2 + 1)

/-- Number of action-level errors in a batch outcome list. -/
def errCountIn (outs : List ActOutcome) : Nat :=
  outs.countP (fun o => o.isErr)

example :
    doMultiActionExec false 0 [.err "a", .ok 1, .err "b", .err "c", .err "d", .ok 2] =
      ([.errRes "a" true, .res 1, .errRes "b" true, .errRes "c" true, .errRes "d" true],
        some "Too many errors in actions", 5) := by decide

/-! ## The orchestration loop (`planner-run.ts`, `runPlannerAndNavigator`, lines 407-477)

Each iteration invokes `navigator.execute()`; the outcome is either a
returned value with `out.error` set, a returned value with a `done` flag, or
a thrown error carrying a message.  The loop:
```
while (stepCount < maxSteps && !done && consecutiveFailures < maxFailures) {
  try {
    const out = await navigator.execute();
    if (out.error) {
      consecutiveFailures++;
      if (consecutiveFailures >= maxFailures) throw new Error(`Max failures ...`);
    } else {
      consecutiveFailures = 0;
      if (out.result?.done) { done = true; break; }
    }
    stepCount++;
  } catch (err) {
    const schemaFailure = msg.includes('JSON schema conversion failed')
      || msg.toLowerCase().includes('tool calling');
    if (structuredOutput !== false && schemaFailure && consecutiveFailures === 0) {
      ...disable structured output...; consecutiveFailures = 0; continue;
    }
    consecutiveFailures++;
    if (consecutiveFailures >= maxFailures) throw new Error(`Max failures ...`);
    stepCount++;
  }
}
if (stepCount >= maxSteps && !done) { ...INCOMPLETE message... }
```
A propagated `Max failures` error is the `FAILED` terminal state; `done =
true` is `DONE`; falling out of the loop with the step budget exhausted is
`INCOMPLETE`.  (If the loop guard fails without the budget being exhausted —
possible only when `maxFailures = 0` — the function returns quietly; we
record that as `exitQuiet`.) -/

/-- JavaScript `String.prototype.includes`: substring containment. -/
def strContains (s pat : String) : Bool :=
  decide (pat.toList <:+: s.toList)

/-- JavaScript `String.prototype.toLowerCase` (ASCII suffices here). -/
def lowerStr (s : String) : String :=
  String.mk (s.toList.map Char.toLower)

/-- The schema-failure test of the loop-level catch. -/
def loopSchemaFailure (msg : String) : Bool :=
  strContains msg "JSON schema conversion failed" || strContains (lowerStr msg) "tool calling"

/-- Outcome of one `navigator.execute()` invocation, as the loop observes it. -/
inductive NavOutcome where
  | errResult (msg : String)
  | success (done : Bool)
  | thrown (msg : String)
deriving DecidableEq, Repr

/-- Terminal state of the orchestration loop. -/
inductive LoopEnd where
  | done
  | failed
  | incomplete
  | exitQuiet
deriving DecidableEq, Repr

/-- The orchestration loop.  `se` is `structuredOutput !== false`; `st` and
`cf` are `stepCount` and `consecutiveFailures`.  Consumes one `NavOutcome`
per `navigator.execute()` invocation and returns the terminal state, the
outcomes consumed, and the final `stepCount` and `consecutiveFailures`
(`none` when the supplied outcome list is exhausted mid-run). -/
def loopGo (ms mf : Nat) (se : Bool) :
    Nat → Nat → List NavOutcome → Option (LoopEnd × List NavOutcome × Nat × Nat)
  | st, cf, [] =>
    if st < ms ∧ cf < mf then none
    else some (if ms ≤ st then .incomplete else .exitQuiet, [], st, cf)
  | st, cf, o :: rest =>
    if st < ms ∧ cf < mf then
      match o with
      | .success true => some (.done, [o], st, 0)
      | .success false =>
          (loopGo ms mf se (st + 1) 0 rest).map fun (r, c, a, b) => (r, o :: c, a, b)
      | .errResult _ =>
          if mf ≤ cf + 1 then some (.failed, [o], st, cf + 1)
          else (loopGo ms mf se (st + 1) (cf + 1) rest).map
            fun (r, c, a, b) => (r, o :: c, a, b)
      | .thrown m =>
          if se && loopSchemaFailure m && decide (cf = 0) then
            (loopGo ms mf se st cf rest).map fun (r, c, a, b) => (r, o :: c, a, b)
          else if mf ≤ cf + 1 then some (.failed, [o], st, cf + 1)
          else (loopGo ms mf se (st + 1) (cf + 1) rest).map
            fun (r, c, a, b) => (r, o :: c, a, b)
    else some (if ms ≤ st then .incomplete else .exitQuiet, [], st, cf)

example :
    loopGo 2 3 true 0 0 [.success false, .success true] =
      some (.done, [.success false, .success true], 1, 0) := by decide
example :
    loopGo 10 3 true 0 0 [.errResult "x", .thrown "y", .errResult "z"] =
      some (.failed, [.errResult "x", .thrown "y", .errResult "z"], 2, 3) := by decide
example :
    loopGo 1 3 true 0 0 [.success false] =
      some (.incomplete, [.success false], 1, 0) := by decide
example :
    loopGo 1 3 true 0 0 [.thrown "JSON schema conversion failed for tool", .success true] =
      some (.done, [.thrown "JSON schema conversion failed for tool", .success true], 0, 0) := by
  decide

/-- Characterization of a finished loop run started at `stepCount = st`:
the terminal state is `DONE`, `FAILED` or `INCOMPLETE`; it is `DONE` exactly
when a consumed outcome reported `done = true`, `FAILED` exactly when the
final consecutive-failure counter reached `maxFailures`, and `INCOMPLETE`
exactly when the final step count exhausted `maxSteps` with neither; a `DONE`
run ends with fewer than `maxSteps` counted steps. -/
def LoopOutcomeSpec (ms mf st : Nat) (r : LoopEnd) (c : List NavOutcome) (a b : Nat) : Prop :=
  (r = .done ∨ r = .failed ∨ r = .incomplete) ∧
  (r = .done ↔ NavOutcome.success true ∈ c) ∧
  (r = .failed ↔ mf ≤ b) ∧
  (r = .incomplete ↔ (a = ms ∧ NavOutcome.success true ∉ c ∧ b < mf)) ∧
  (r = .done → a < ms) ∧ st ≤ a ∧ a ≤ ms

/-! ## Structured-output downgrade (`planner-run.ts`, lines 369-392 and 448-456)

The CLI patches `NavigatorAgent.prototype.invoke`:
```
NavAgentAny.prototype.invoke = async function (inputMessages) {
  if (this.withStructuredOutput) {
    try { return await originalInvoke.call(this, inputMessages); }
    catch (err) {
      const schemaFailure = msg.includes('JSON schema conversion failed')
        || msg.includes('structured output');
      if (schemaFailure) {
        this.withStructuredOutput = false;
        return await BaseAgent.prototype.invoke.call(this, inputMessages);
      }
      throw err;
    }
  }
  return await BaseAgent.prototype.invoke.call(this, inputMessages);
};
```
The loop-level catch can additionally assign `withStructuredOutput = false`
(never `true`).  The agent state is the boolean `withStructuredOutput`; an
external event is either a model invocation (with the outcome the structured
attempt would have) or the loop-level fallback assignment. -/

/-- The schema-failure test of the patched `invoke`. -/
def invokeSchemaFailure (msg : String) : Bool :=
  strContains msg "JSON schema conversion failed" || strContains msg "structured output"

/-- Outcome of the structured-output invocation attempt, had it been made. -/
inductive InvokeOutcome where
  | ok
  | err (msg : String)
deriving DecidableEq, Repr

/-- What one call to the patched `invoke` did. -/
inductive CallResult where
  | structuredOk
  | fellBack
  | extractionOnly
  | raised (msg : String)
deriving DecidableEq, Repr

/-- The patched `NavigatorAgent.invoke` on one call: given the current
`withStructuredOutput` flag and the structured attempt outcome, returns what
happened and the new flag.  `structuredOk` and `fellBack` are the only results
that attempt the structured schema; `extractionOnly` goes straight to the
extraction-based `BaseAgent` path. -/
def navInvokeStep (wso : Bool) (o : InvokeOutcome) : CallResult × Bool :=
  if wso then
    match o with
    | .ok => (.structuredOk, true)
    | .err m => if invokeSchemaFailure m then (.fellBack, false) else (.raised m, true)
  else (.extractionOnly, false)

/-- An event touching the agent's `withStructuredOutput` flag. -/
inductive AgentEvent where
  | invoke (o : InvokeOutcome)
  | loopSchemaFallback
deriving DecidableEq, Repr

/-- Flag transition for one event (`loopSchemaFallback` is the loop-level
catch assigning `withStructuredOutput = false`). -/
def agentStepFlag (wso : Bool) : AgentEvent → Bool
  | .invoke o => (navInvokeStep wso o).2
  | .loopSchemaFallback => false

/-- Flag after a sequence of events. -/
def stateAfter (w0 : Bool) (es : List AgentEvent) : Bool :=
  es.foldl agentStepFlag w0

/-- Number of true-to-false downgrades of the flag along an event sequence. -/
def downgradeCount (w0 : Bool) : List AgentEvent → Nat
  | [] => 0
  | e :: rest =>
    let w1 := agentStepFlag w0 e
    (if w0 && !w1 then 1 else 0) + downgradeCount w1 rest

example : stateAfter true [.invoke (.err "JSON schema conversion failed")] = false := by decide
example : downgradeCount true
    [.invoke (.err "JSON schema conversion failed"), .loopSchemaFallback, .invoke .ok] = 1 := by
  decide

/-! ## DOM snapshot indexer (`dom/service-cli.ts`, `constructDomTree`)

The source:
```
function constructDomTree(evalPage) {
  const jsNodeMap = evalPage.map; const jsRootId = evalPage.rootId;
  const selectorMap = new Map(); const nodeMap = {};
  for (const [id, nodeData] of Object.entries(jsNodeMap)) {
    const [node] = _parse_node(nodeData);
    if (node === null) continue;
    nodeMap[id] = node;
    if (node instanceof DOMElementNode && node.highlightIndex !== undefined
        && node.highlightIndex !== null) selectorMap.set(node.highlightIndex, node);
  }
  for (const [id, node] of Object.entries(nodeMap)) {
    if (node instanceof DOMElementNode) {
      const childrenIds = 'children' in data ? data.children : [];
      for (const childId of childrenIds) {
        if (!(childId in nodeMap)) continue;
        nodeMap[childId].parent = node;
        node.children.push(nodeMap[childId]);
      }
    }
  }
  const root = nodeMap[jsRootId];
  if (!root || !(root instanceof DOMElementNode)) throw new Error('Failed to parse DOM tree');
  return [root, selectorMap];
}
```
The flat map is an association list with the string node ids as keys (a
JavaScript object cannot carry duplicate keys).  The wired result is a graph
of mutable node objects; we embed it by its observations: `wiredChildren`
(the per-element child-id list after wiring), parenthood, the selector map
entries, and the fuelled unfolding `subtreeCount` counting the nodes of the
tree hanging off a given id. -/

/-- Raw element entry of the in-page probe output (spec section 6 shape). -/
structure RawElem where
  tagName : String
  attributes : List (String × String)
  children : List String
  highlightIndex : Option Int
deriving DecidableEq, Repr

/-- Raw entry of the flat node map: a text node or an element node. -/
inductive RawNode where
  | text (s : String)
  | elem (e : RawElem)
deriving DecidableEq, Repr

/-- The flat node map, an association list keyed by node id. -/
abbrev RawMap := List (String × RawNode)

/-- A typed DOM node as `_parse_node` classifies it (children wired later). -/
inductive DOMBaseNode where
  | textNode (s : String)
  | elementNode (tagName : String) (attributes : List (String × String))
      (highlightIndex : Option Int)
deriving DecidableEq, Repr

/-- Modelled from the spec: `_parse_node` is imported from
`chrome-extension/src/background/dom/service`, whose source is not part of
this snapshot.  Spec section 4.1: "construct one typed Node per entry,
classifying Element vs Text"; spec section 6 gives the entry shape
(`tag|text, attributes, children, highlightIndex?`).  Every well-shaped entry
yields a node, so the `node === null` guard of `constructDomTree` never
fires here. -/
def parse_node : RawNode → Option DOMBaseNode
  | .text s => some (.textNode s)
  | .elem e => some (.elementNode e.tagName e.attributes e.highlightIndex)

/-- Key lookup in the flat map (`jsNodeMap[id]`). -/
def findRaw : RawMap → String → Option RawNode
  | [], _ => none
  | (k, v) :: rest, id => if k = id then some v else findRaw rest id

/-- The node ids of the flat map. -/
def keysOf (m : RawMap) : List String := m.map Prod.fst

/-- The child-id list of the node `id` after the wiring pass: the element's
declared child ids, in order, restricted to ids present in the map (the
`if (!(childId in nodeMap)) continue` guard); non-elements get no children. -/
def wiredChildren (m : RawMap) (id : String) : List String :=
  match findRaw m id with
  | some (.elem e) => e.children.filter fun c => (findRaw m c).isSome
  | _ => []

/-- Whether the wiring pass installs a parent back-reference on `id`. -/
def hasParentIn (m : RawMap) (id : String) : Prop :=
  ∃ p ∈ keysOf m, id ∈ wiredChildren m p

/-- The `selectorMap.set` calls of the first pass, in map-entry order: one
`(highlightIndex, id)` binding per element whose highlight index is defined
and non-null. -/
def selectorEntries (m : RawMap) : List (Int × String) :=
  m.filterMap fun e =>
    match e.2 with
    | .elem el => el.highlightIndex.map fun h => (h, e.1)
    | .text _ => none

/-- Selector-map lookup: a later `set` on the same key overwrites an earlier
one, so the last binding wins. -/
def selLookup (m : RawMap) (h : Int) : Option String :=
  ((selectorEntries m).reverse.find? fun e => e.1 == h).map Prod.snd

/-- Number of keys of the selector map. -/
def selSize (m : RawMap) : Nat :=
  ((selectorEntries m).map Prod.fst).dedup.length

/-- `constructDomTree`: fails with `Failed to parse DOM tree` exactly when
the declared root id is absent or resolves to a non-element; otherwise
returns the root id of the wired graph together with the selector map. -/
def constructDomTree (m : RawMap) (rootId : String) :
    Except String (String × List (Int × String)) :=
  match findRaw m rootId with
  | some (.elem _) => .ok (rootId, selectorEntries m)
  | _ => .error "Failed to parse DOM tree"

/-- Number of nodes of the tree hanging off `id` in the wired graph, unfolded
with `fuel` levels.  Any fuel of at least the tree size is exact when the map
encodes a tree. -/
def subtreeCount (m : RawMap) : Nat → String → Nat
  | 0, _ => 0
  | fuel + 1, id => 1 + ((wiredChildren m id).map (subtreeCount m fuel)).sum

/-! ### Validity of a flat node map

The spec quantifies over "valid" flat node maps without defining validity;
we take a map to be valid when it is the flat encoding of an abstract node
tree with pairwise-distinct node ids (and, for the selector-map claim,
pairwise-distinct highlight indices) — exactly the shape the in-page probe
produces. -/

/-- An abstract DOM tree: the shape a valid flat node map encodes. -/
inductive ATree where
  | text (id : String) (s : String)
  | elem (id : String) (tagName : String) (attributes : List (String × String))
      (h : Option Int) (children : List ATree)

/-- Root node id of an abstract tree. -/
def topId : ATree → String
  | .text id _ => id
  | .elem id _ _ _ _ => id

/-- The raw map entry of an abstract tree's root node. -/
def topRaw : ATree → RawNode
  | .text _ s => .text s
  | .elem _ tag attrs h cs => .elem ⟨tag, attrs, cs.map topId, h⟩

mutual

/-- Flat encoding of an abstract tree: the root entry followed by the
encodings of the child subtrees. -/
def flatT : ATree → RawMap
  | .text id s => [(id, .text s)]
  | .elem id tag attrs h cs => (id, .elem ⟨tag, attrs, cs.map topId, h⟩) :: flatF cs

/-- Flat encoding of a forest. -/
def flatF : List ATree → RawMap
  | [] => []
  | t :: ts => flatT t ++ flatF ts

end

/-- Number of nodes of an abstract tree. -/
def sizeT (t : ATree) : Nat := (flatT t).length

/-- The node ids of an abstract tree. -/
def treeIds (t : ATree) : List String := keysOf (flatT t)

/-- Whether the root of an abstract tree is an element node. -/
def ATree.isElem : ATree → Bool
  | .text _ _ => false
  | .elem _ _ _ _ _ => true

/-- The map's keys are pairwise distinct. -/
def NodupKeys (m : RawMap) : Prop := (keysOf m).Nodup

/-- `m` is the flat encoding of the abstract tree `t` (entries in any
order), with pairwise-distinct node ids. -/
def EncodesTree (m : RawMap) (t : ATree) : Prop :=
  NodupKeys (flatT t) ∧ m.Perm (flatT t)

/-- Defined-and-non-null highlight indices identify elements uniquely. -/
def InjHighlights (m : RawMap) : Prop :=
  ∀ id1 id2 e1 e2 h, (id1, RawNode.elem e1) ∈ m → (id2, RawNode.elem e2) ∈ m →
    e1.highlightIndex = some h → e2.highlightIndex = some h → id1 = id2

/-- A valid flat node map: the encoding of a node tree, with distinct ids
and distinct highlight indices. -/
def ValidFlat (m : RawMap) (t : ATree) : Prop :=
  EncodesTree m t ∧ InjHighlights m

example :
    flatT (.elem "0" "body" [] none [.elem "1" "a" [] (some 5) [], .text "2" "hi"]) =
      [("0", .elem ⟨"body", [], ["1", "2"], none⟩), ("1", .elem ⟨"a", [], [], some 5⟩),
        ("2", .text "hi")] := rfl
example :
    subtreeCount
      [("0", .elem ⟨"body", [], ["1", "2"], none⟩), ("1", .elem ⟨"a", [], [], some 5⟩),
        ("2", RawNode.text "hi")] 3 "0" = 3 := by decide
example :
    selLookup [("0", .elem ⟨"body", [], ["1"], none⟩), ("1", .elem ⟨"a", [], [], some 5⟩)] 5 =
      some "1" := by decide
example :
    constructDomTree [("0", RawNode.text "hi")] "0" = .error "Failed to parse DOM tree" := rfl

/-! # Theorems -/

/-! ## C10: zero scroll amount means one full viewport -/

/-- C10: `scrollDown(0)` and `scrollUp(0)` scroll by one full viewport
height, exactly as when the amount argument is omitted, because a zero
amount is falsy in the `if (amount)` test. -/
theorem claim_C10_scroll_zero_is_viewport (vh : Int) :
    scrollDownDelta vh (some 0) = scrollDownDelta vh none ∧
    scrollUpDelta vh (some 0) = scrollUpDelta vh none ∧
    scrollDownDelta vh none = vh ∧ scrollUpDelta vh none = -vh := by
  simp [scrollDownDelta, scrollUpDelta]

/-! ## C9: closeTab is total and clamps the current index -/

/-- C9: `closeTab` has no throwing path; tab id 0 (`idx = -1`) splices the
last page off the list, an id beyond the list leaves the pages unchanged,
and afterwards `currentIdx` always lies within the remaining list (or is 0
when the list emptied).  The hypothesis is the invariant `ensure()`
establishes. -/
theorem claim_C9_closeTab_total (s : TabsState) (h : s.currentIdx < s.pages.length)
    (tabId : Nat) :
    (closeTab s 0).pages = s.pages.dropLast ∧
    (s.pages.length < tabId → (closeTab s tabId).pages = s.pages) ∧
    ((closeTab s tabId).currentIdx < (closeTab s tabId).pages.length ∨
      ((closeTab s tabId).pages = [] ∧ (closeTab s tabId).currentIdx = 0)) := by
  have hlen : 1 ≤ s.pages.length := by omega
  refine ⟨?_, ?_, ?_⟩
  · show spliceRemoveOne s.pages ((0 : Int) - 1) = s.pages.dropLast
    unfold spliceRemoveOne
    have h0 : (((s.pages.length : Int) + (0 - 1)).toNat) = s.pages.length - 1 := by omega
    simp only [if_pos (by omega : (0 : Int) - 1 < 0), h0]
    have hd : s.pages.length - 1 + 1 = s.pages.length := by omega
    rw [hd, List.drop_length, List.append_nil, List.dropLast_eq_take]
  · intro hgt
    show spliceRemoveOne s.pages ((tabId : Int) - 1) = s.pages
    unfold spliceRemoveOne
    have hnn : ¬ ((tabId : Int) - 1 < 0) := by omega
    simp only [if_neg hnn]
    have h1 : s.pages.length ≤ ((tabId : Int) - 1).toNat := by omega
    rw [List.take_of_length_le h1, List.drop_eq_nil_of_le (by omega), List.append_nil]
  · have hP : (closeTab s tabId).pages = spliceRemoveOne s.pages ((tabId : Int) - 1) := rfl
    have hC : (closeTab s tabId).currentIdx =
        if (spliceRemoveOne s.pages ((tabId : Int) - 1)).length ≤ s.currentIdx then
          (spliceRemoveOne s.pages ((tabId : Int) - 1)).length - 1
        else s.currentIdx := rfl
    rw [hP, hC]
    generalize spliceRemoveOne s.pages ((tabId : Int) - 1) = L
    by_cases hc : L.length ≤ s.currentIdx
    · rw [if_pos hc]
      by_cases hz : L.length = 0
      · exact Or.inr ⟨List.length_eq_zero.mp hz, by omega⟩
      · exact Or.inl (by omega)
    · rw [if_neg hc]
      exact Or.inl (by omega)

/-! ## C6: tab-id stability -/

/-- C6 counterexample: with pages `[10, 20]`, page 20 is addressed as tab 2;
after `closeTab 1` — an operation on a different tab — page 20 is still open
but is now addressed as tab 1.  Tab ids are therefore not stable for the
adapter's lifetime. -/
theorem claim_C6_counterexample :
    tabIdOf ⟨[10, 20], 0⟩ 20 = some 2 ∧
    20 ∈ (closeTab ⟨[10, 20], 0⟩ 1).pages ∧
    tabIdOf (closeTab ⟨[10, 20], 0⟩ 1) 20 = some 1 := by
  decide

/-- C6 amended: tab ids are 1-based positions in the adapter's page list;
`listTabs` numbers tabs `1..N`, `openTab` and `switchTab` leave the
positions of already-open tabs unchanged, but `closeTab` with id `k`
(resolving to an open tab) keeps the ids below `k` and shifts every id above
`k` down by one — ids are positional, not lifetime-stable. -/
theorem claim_C6_amended (s : TabsState) (q i k : Nat) :
    ((getTabInfos s).map Prod.fst = (List.range s.pages.length).map (· + 1)) ∧
    (i < s.pages.length → (openTab s q).pages[i]? = s.pages[i]?) ∧
    (∀ s2, switchTab s k = .ok s2 → s2.pages = s.pages) ∧
    (1 ≤ k → k ≤ s.pages.length →
      (i + 1 < k → (closeTab s k).pages[i]? = s.pages[i]?) ∧
      (k ≤ i + 1 → (closeTab s k).pages[i]? = s.pages[i + 1]?)) := by
  refine ⟨?_, ?_, ?_, ?_⟩
  · simp [getTabInfos]
  · intro hi
    show (s.pages ++ [q])[i]? = s.pages[i]?
    rw [List.getElem?_append, if_pos hi]
  · intro s2 hs2
    unfold switchTab at hs2
    simp only [] at hs2
    split at hs2
    · exact Except.noConfusion hs2
    · injection hs2 with h
      rw [← h]
  · intro hk1 hklen
    have hpages : (closeTab s k).pages = s.pages.take (k - 1) ++ s.pages.drop k := by
      show spliceRemoveOne s.pages ((k : Int) - 1) = _
      unfold spliceRemoveOne
      have hnn : ¬ ((k : Int) - 1 < 0) := by omega
      have ht : ((k : Int) - 1).toNat = k - 1 := by omega
      simp only [if_neg hnn, ht]
      have : k - 1 + 1 = k := by omega
      rw [this]
    have htlen : (s.pages.take (k - 1)).length = k - 1 := by
      rw [List.length_take]
      omega
    constructor
    · intro hik
      rw [hpages, List.getElem?_append, if_pos (by omega), List.getElem?_take,
        if_pos (by omega)]
    · intro hki
      rw [hpages, List.getElem?_append_right (by omega), List.getElem?_drop, htlen]
      congr 1
      omega

/-- Witness for C9 at the concrete state `pages = [10, 20], currentIdx = 1`,
closing tab 2. -/
theorem claim_C9_closeTab_total_witness :
    (closeTab ⟨[10, 20], 1⟩ 0).pages = [10] ∧
    (closeTab ⟨[10, 20], 1⟩ 2).currentIdx < (closeTab ⟨[10, 20], 1⟩ 2).pages.length ∨
      ((closeTab ⟨[10, 20], 1⟩ 2).pages = [] ∧ (closeTab ⟨[10, 20], 1⟩ 2).currentIdx = 0) := by
  have h := claim_C9_closeTab_total ⟨[10, 20], 1⟩ (by decide) 2
  exact Or.inl ⟨by decide, h.2.2.elim (fun hlt => hlt)
    (fun habs => absurd habs.1 (by decide))⟩

/-- Witness for C6 amended at a concrete three-tab state, closing tab 2. -/
theorem claim_C6_amended_witness :
    (closeTab ⟨[10, 20, 30], 0⟩ 2).pages[0]? = some 10 ∧
    (closeTab ⟨[10, 20, 30], 0⟩ 2).pages[1]? = some 30 := by
  have h0 := claim_C6_amended ⟨[10, 20, 30], 0⟩ 99 0 2
  have h1 := claim_C6_amended ⟨[10, 20, 30], 0⟩ 99 1 2
  refine ⟨?_, ?_⟩
  · rw [(h0.2.2.2 (by decide) (by decide)).1 (by decide)]
    rfl
  · rw [(h1.2.2.2 (by decide) (by decide)).2 (by decide)]
    rfl

/-! ## C7: action payload normalization -/

/-- C7 counterexample: `response.action = null` is none of the three accepted
shapes, yet normalization does not fail with `InvalidActionPayload` — it
yields the empty action list (all three `if` branches are skipped and
`actions` keeps its `[]` initializer). -/
theorem claim_C7_counterexample :
    normalizeActions (fun _ => none) JsVal.null = NormOut.ok [] ∧
    NormOut.ok [] ≠ NormOut.invalidFormat :=
  ⟨rfl, fun h => NormOut.noConfusion h⟩

/-- C7 amended: the three accepted shapes — a single single-key action
object, a list of such objects, and a string `JSON.parse`-ing to such a list
— normalize to the same internal ordered action list, and a string that
fails to parse is rejected with `Invalid action output format`
(`InvalidActionPayload`); however, other shapes are not all rejected: a
falsy payload such as `null` normalizes to the empty list. -/
theorem claim_C7_amended (parse : String → Option JsVal) (xs : List JsVal) (s : String)
    (o : JsVal) (hxs : ∀ x ∈ xs, x.isSingleKeyObj = true)
    (hs : parse s = some (.arr xs)) (ho : o.isSingleKeyObj = true) :
    normalizeActions parse (.arr xs) = .ok xs ∧
    normalizeActions parse (.str s) = .ok xs ∧
    normalizeActions parse o = .ok [o] ∧
    (∀ s2, parse s2 = none → normalizeActions parse (.str s2) = .invalidFormat) ∧
    normalizeActions parse .null = .ok [] := by
  refine ⟨?_, ?_, ?_, ?_, rfl⟩
  · show NormOut.ok (xs.filter JsVal.isNotNull) = NormOut.ok xs
    congr 1
    refine List.filter_eq_self.mpr fun x hx => ?_
    have h1 := hxs x hx
    cases x <;> simp_all [JsVal.isSingleKeyObj, JsVal.isNotNull]
  · simp [normalizeActions, hs]
  · cases o with
    | obj fields =>
      cases fields with
      | nil => simp [JsVal.isSingleKeyObj] at ho
      | cons f rest =>
        cases rest with
        | nil => rfl
        | cons g rest2 => simp [JsVal.isSingleKeyObj] at ho
    | null => simp [JsVal.isSingleKeyObj] at ho
    | undef => simp [JsVal.isSingleKeyObj] at ho
    | bool b => simp [JsVal.isSingleKeyObj] at ho
    | num n => simp [JsVal.isSingleKeyObj] at ho
    | str s2 => simp [JsVal.isSingleKeyObj] at ho
    | arr es => simp [JsVal.isSingleKeyObj] at ho
  · intro s2 h2
    simp [normalizeActions, h2]

/-- Witness for C7 amended: one concrete click action in all three shapes. -/
theorem claim_C7_amended_witness :
    normalizeActions
        (fun s => if s = "payload" then some (.arr [.obj [("click", .null)]]) else none)
        (.arr [.obj [("click", .null)]]) = .ok [.obj [("click", .null)]] ∧
    normalizeActions
        (fun s => if s = "payload" then some (.arr [.obj [("click", .null)]]) else none)
        (.str "payload") = .ok [.obj [("click", .null)]] ∧
    normalizeActions
        (fun s => if s = "payload" then some (.arr [.obj [("click", .null)]]) else none)
        (.obj [("click", .null)]) = .ok [.obj [("click", .null)]] := by
  have h := claim_C7_amended
    (fun s => if s = "payload" then some (.arr [.obj [("click", .null)]]) else none)
    [.obj [("click", .null)]] "payload" (.obj [("click", .null)])
    (by intro x hx; simp at hx; rw [hx]; rfl) (by rfl) (by rfl)
  exact ⟨h.1, h.2.1, h.2.2.1⟩

/-! ## C5: the structured-output downgrade is one-time and irreversible -/

/-- Helper: no event can set a false `withStructuredOutput` flag back to
true. -/
theorem agentStepFlag_false (e : AgentEvent) : agentStepFlag false e = false := by
  cases e with
  | invoke o => rfl
  | loopSchemaFallback => rfl

/-- Helper: once the flag is false it stays false over any event sequence. -/
theorem stateAfter_false (es : List AgentEvent) : stateAfter false es = false := by
  induction es with
  | nil => rfl
  | cons e rest ih =>
    show stateAfter (agentStepFlag false e) rest = false
    rw [agentStepFlag_false]
    exact ih

/-- Helper: the flag downgrades at most once along any event sequence. -/
theorem downgradeCount_le_one (w0 : Bool) (es : List AgentEvent) :
    downgradeCount w0 es ≤ 1 := by
  induction es generalizing w0 with
  | nil => simp [downgradeCount]
  | cons e rest ih =>
    show (if w0 && !agentStepFlag w0 e then 1 else 0) + downgradeCount (agentStepFlag w0 e) rest ≤ 1
    cases w0 with
    | false =>
      rw [agentStepFlag_false]
      simpa using ih false
    | true =>
      cases hw : agentStepFlag true e with
      | true => simpa using ih true
      | false =>
        have hz : downgradeCount false rest = 0 := by
          clear ih hw
          induction rest with
          | nil => rfl
          | cons f fs ihf =>
            show (if false && !agentStepFlag false f then 1 else 0) +
              downgradeCount (agentStepFlag false f) fs = 0
            rw [agentStepFlag_false]
            simpa using ihf
        simp [hz]

/-- C5: once a schema-conversion failure has switched the agent to the
extraction-based parser (`withStructuredOutput = false`), the flag stays
false for the remainder of the task, every subsequent invocation goes
straight to the extraction path without re-attempting the structured schema,
and the true-to-false downgrade happens at most once per task instance. -/
theorem claim_C5_downgrade_irreversible (w0 : Bool) (es1 es2 : List AgentEvent)
    (o : InvokeOutcome) (hdown : stateAfter w0 es1 = false) :
    stateAfter w0 (es1 ++ es2) = false ∧
    navInvokeStep (stateAfter w0 es1) o = (.extractionOnly, false) ∧
    downgradeCount w0 es1 ≤ 1 := by
  refine ⟨?_, ?_, downgradeCount_le_one w0 es1⟩
  · show (es1 ++ es2).foldl agentStepFlag w0 = false
    rw [List.foldl_append,
      show es1.foldl agentStepFlag w0 = stateAfter w0 es1 from rfl, hdown]
    exact stateAfter_false es2
  · rw [hdown]
    rfl

/-- Witness for C5: a schema failure on the first invocation downgrades the
agent; afterwards the flag is still false and the next call is
extraction-only. -/
theorem claim_C5_downgrade_irreversible_witness :
    stateAfter true
        ([.invoke (.err "JSON schema conversion failed")] ++ [.invoke .ok, .loopSchemaFallback]) =
      false ∧
    navInvokeStep (stateAfter true [.invoke (.err "JSON schema conversion failed")]) .ok =
      (.extractionOnly, false) ∧
    downgradeCount true [.invoke (.err "JSON schema conversion failed")] ≤ 1 :=
  claim_C5_downgrade_irreversible true [.invoke (.err "JSON schema conversion failed")]
    [.invoke .ok, .loopSchemaFallback] .ok (by decide)

/-! ## C1: terminal states of the orchestration loop -/

/-- Helper: consuming one more outcome that is not `success true` in front of
a characterized run preserves the characterization. -/
theorem loopOutcomeSpec_cons (ms mf st st2 : Nat) (o : NavOutcome)
    (ho : o ≠ NavOutcome.success true) (hst : st ≤ st2) (r : LoopEnd)
    (c : List NavOutcome) (a b : Nat) (h : LoopOutcomeSpec ms mf st2 r c a b) :
    LoopOutcomeSpec ms mf st r (o :: c) a b := by
  obtain ⟨h1, h2, h3, h4, h5, h6, h7⟩ := h
  refine ⟨h1, ?_, h3, ?_, h5, le_trans hst h6, h7⟩
  · rw [h2, List.mem_cons]
    constructor
    · exact Or.inr
    · rintro (heq | hm)
      · exact absurd heq.symm ho
      · exact hm
  · rw [h4]
    constructor
    · rintro ⟨ha, hm, hb⟩
      refine ⟨ha, ?_, hb⟩
      intro hmem
      rw [List.mem_cons] at hmem
      rcases hmem with heq | hm2
      · exact ho heq.symm
      · exact hm hm2
    · rintro ⟨ha, hm, hb⟩
      exact ⟨ha, fun hm2 => hm (List.mem_cons_of_mem o hm2), hb⟩

/-- Unfolding equation: empty outcome list. -/
theorem loopGo_nil_eq (ms mf : Nat) (se : Bool) (st cf : Nat) :
    loopGo ms mf se st cf [] =
      if st < ms ∧ cf < mf then none
      else some (if ms ≤ st then .incomplete else .exitQuiet, [], st, cf) := rfl

/-- Unfolding equation: a successful step reporting `done = true`. -/
theorem loopGo_successT_eq (ms mf : Nat) (se : Bool) (st cf : Nat) (rest : List NavOutcome) :
    loopGo ms mf se st cf (.success true :: rest) =
      if st < ms ∧ cf < mf then some (.done, [.success true], st, 0)
      else some (if ms ≤ st then .incomplete else .exitQuiet, [], st, cf) := rfl

/-- Unfolding equation: a successful step without `done`. -/
theorem loopGo_successF_eq (ms mf : Nat) (se : Bool) (st cf : Nat) (rest : List NavOutcome) :
    loopGo ms mf se st cf (.success false :: rest) =
      if st < ms ∧ cf < mf then
        (loopGo ms mf se (st + 1) 0 rest).map
          fun (r, c, a, b) => (r, .success false :: c, a, b)
      else some (if ms ≤ st then .incomplete else .exitQuiet, [], st, cf) := rfl

/-- Unfolding equation: a step whose result carries `out.error`. -/
theorem loopGo_err_eq (ms mf : Nat) (se : Bool) (st cf : Nat) (m : String)
    (rest : List NavOutcome) :
    loopGo ms mf se st cf (.errResult m :: rest) =
      if st < ms ∧ cf < mf then
        if mf ≤ cf + 1 then some (.failed, [.errResult m], st, cf + 1)
        else (loopGo ms mf se (st + 1) (cf + 1) rest).map
          fun (r, c, a, b) => (r, .errResult m :: c, a, b)
      else some (if ms ≤ st then .incomplete else .exitQuiet, [], st, cf) := rfl

/-- Unfolding equation: a step that threw. -/
theorem loopGo_thrown_eq (ms mf : Nat) (se : Bool) (st cf : Nat) (m : String)
    (rest : List NavOutcome) :
    loopGo ms mf se st cf (.thrown m :: rest) =
      if st < ms ∧ cf < mf then
        if se && loopSchemaFailure m && decide (cf = 0) then
          (loopGo ms mf se st cf rest).map
            fun (r, c, a, b) => (r, .thrown m :: c, a, b)
        else if mf ≤ cf + 1 then some (.failed, [.thrown m], st, cf + 1)
        else (loopGo ms mf se (st + 1) (cf + 1) rest).map
          fun (r, c, a, b) => (r, .thrown m :: c, a, b)
      else some (if ms ≤ st then .incomplete else .exitQuiet, [], st, cf) := rfl

/-- Helper: the spec holds for the budget-exhaustion exit. -/
theorem loopOutcomeSpec_incomplete (ms mf st cf : Nat) (hcf : cf < mf) (hms : st = ms) :
    LoopOutcomeSpec ms mf st .incomplete [] st cf := by
  refine ⟨Or.inr (Or.inr rfl), ?_, ?_, ?_, ?_, Nat.le_refl st, Nat.le_of_eq hms⟩
  · exact iff_of_false (by simp) (by simp)
  · exact iff_of_false (by simp) (by omega)
  · exact iff_of_true rfl ⟨hms, by simp, hcf⟩
  · intro h
    exact absurd h (by simp)

/-- Helper: the spec holds for the `Max failures` throw. -/
theorem loopOutcomeSpec_failed (ms mf st cf : Nat) (o : NavOutcome)
    (ho : o ≠ NavOutcome.success true) (hfail : mf ≤ cf + 1) (hstm : st < ms) :
    LoopOutcomeSpec ms mf st .failed [o] st (cf + 1) := by
  refine ⟨Or.inr (Or.inl rfl), ?_, iff_of_true rfl hfail, ?_, ?_, Nat.le_refl st,
    Nat.le_of_lt hstm⟩
  · refine iff_of_false (by simp) ?_
    intro hmem
    exact ho (List.mem_singleton.mp hmem).symm
  · exact iff_of_false (by simp) fun h => absurd hfail (Nat.not_le.mpr h.2.2)
  · intro h
    exact absurd h (by simp)

/-- Helper: every finished run of the embedded orchestration loop satisfies
the terminal-state characterization, for any start state within budget. -/
theorem loopGo_characterization (ms mf : Nat) (se : Bool) (hmf : 0 < mf)
    (os : List NavOutcome) :
    ∀ (st cf : Nat), cf < mf → st ≤ ms →
    ∀ (r : LoopEnd) (c : List NavOutcome) (a b : Nat),
    loopGo ms mf se st cf os = some (r, c, a, b) →
    LoopOutcomeSpec ms mf st r c a b := by
  induction os with
  | nil =>
    intro st cf hcf hst r c a b heq
    rw [loopGo_nil_eq] at heq
    by_cases hstm : st < ms
    · rw [if_pos ⟨hstm, hcf⟩] at heq
      exact Option.noConfusion heq
    · rw [if_neg (fun hand => hstm hand.1), if_pos (Nat.le_of_not_lt hstm)] at heq
      simp only [Option.some.injEq, Prod.mk.injEq] at heq
      obtain ⟨rfl, rfl, rfl, rfl⟩ := heq
      exact loopOutcomeSpec_incomplete ms mf st cf hcf
        (Nat.le_antisymm hst (Nat.le_of_not_lt hstm))
  | cons o rest ih =>
    intro st cf hcf hst r c a b heq
    by_cases hstm : st < ms
    case neg =>
      have hms : st = ms := Nat.le_antisymm hst (Nat.le_of_not_lt hstm)
      have hguard : ¬ (st < ms ∧ cf < mf) := fun hand => hstm hand.1
      have hq :
          loopGo ms mf se st cf (o :: rest) =
            some (if ms ≤ st then .incomplete else .exitQuiet, [], st, cf) := by
        cases o with
        | errResult m => rw [loopGo_err_eq, if_neg hguard]
        | thrown m => rw [loopGo_thrown_eq, if_neg hguard]
        | success d =>
          cases d with
          | true => rw [loopGo_successT_eq, if_neg hguard]
          | false => rw [loopGo_successF_eq, if_neg hguard]
      rw [hq, if_pos (Nat.le_of_not_lt hstm)] at heq
      simp only [Option.some.injEq, Prod.mk.injEq] at heq
      obtain ⟨rfl, rfl, rfl, rfl⟩ := heq
      exact loopOutcomeSpec_incomplete ms mf st cf hcf hms
    case pos =>
      cases o with
      | success d =>
        cases d with
        | true =>
          rw [loopGo_successT_eq, if_pos ⟨hstm, hcf⟩] at heq
          simp only [Option.some.injEq, Prod.mk.injEq] at heq
          obtain ⟨rfl, rfl, rfl, rfl⟩ := heq
          refine ⟨Or.inl rfl, ?_, ?_, ?_, fun _ => hstm, Nat.le_refl st, Nat.le_of_lt hstm⟩
          · exact iff_of_true rfl (List.mem_singleton.mpr rfl)
          · exact iff_of_false (by simp) (by omega)
          · exact iff_of_false (by simp) fun h => h.2.1 (List.mem_singleton.mpr rfl)
        | false =>
          rw [loopGo_successF_eq, if_pos ⟨hstm, hcf⟩] at heq
          rcases Option.map_eq_some'.mp heq with ⟨⟨r2, c2, a2, b2⟩, hrec, hmap⟩
          simp only [Prod.mk.injEq] at hmap
          obtain ⟨rfl, rfl, rfl, rfl⟩ := hmap
          exact loopOutcomeSpec_cons ms mf st (st + 1) _ (by simp) (Nat.le_succ st) _ _ _ _
            (ih (st + 1) 0 hmf hstm _ _ _ _ hrec)
      | errResult m =>
        rw [loopGo_err_eq, if_pos ⟨hstm, hcf⟩] at heq
        by_cases hfail : mf ≤ cf + 1
        · rw [if_pos hfail] at heq
          simp only [Option.some.injEq, Prod.mk.injEq] at heq
          obtain ⟨rfl, rfl, rfl, rfl⟩ := heq
          exact loopOutcomeSpec_failed ms mf st cf _ (by simp) hfail hstm
        · rw [if_neg hfail] at heq
          rcases Option.map_eq_some'.mp heq with ⟨⟨r2, c2, a2, b2⟩, hrec, hmap⟩
          simp only [Prod.mk.injEq] at hmap
          obtain ⟨rfl, rfl, rfl, rfl⟩ := hmap
          exact loopOutcomeSpec_cons ms mf st (st + 1) _ (by simp) (Nat.le_succ st) _ _ _ _
            (ih (st + 1) (cf + 1) (Nat.lt_of_not_le hfail) hstm _ _ _ _ hrec)
      | thrown m =>
        rw [loopGo_thrown_eq, if_pos ⟨hstm, hcf⟩] at heq
        by_cases hsf : (se && loopSchemaFailure m && decide (cf = 0)) = true
        · rw [if_pos hsf] at heq
          rcases Option.map_eq_some'.mp heq with ⟨⟨r2, c2, a2, b2⟩, hrec, hmap⟩
          simp only [Prod.mk.injEq] at hmap
          obtain ⟨rfl, rfl, rfl, rfl⟩ := hmap
          exact loopOutcomeSpec_cons ms mf st st _ (by simp) (Nat.le_refl st) _ _ _ _
            (ih st cf hcf hst _ _ _ _ hrec)
        · rw [if_neg hsf] at heq
          by_cases hfail : mf ≤ cf + 1
          · rw [if_pos hfail] at heq
            simp only [Option.some.injEq, Prod.mk.injEq] at heq
            obtain ⟨rfl, rfl, rfl, rfl⟩ := heq
            exact loopOutcomeSpec_failed ms mf st cf _ (by simp) hfail hstm
          · rw [if_neg hfail] at heq
            rcases Option.map_eq_some'.mp heq with ⟨⟨r2, c2, a2, b2⟩, hrec, hmap⟩
            simp only [Prod.mk.injEq] at hmap
            obtain ⟨rfl, rfl, rfl, rfl⟩ := hmap
            exact loopOutcomeSpec_cons ms mf st (st + 1) _ (by simp) (Nat.le_succ st) _ _ _ _
              (ih (st + 1) (cf + 1) (Nat.lt_of_not_le hfail) hstm _ _ _ _ hrec)

/-- C1: for every finished run of the orchestration loop with budgets
`maxSteps` (`ms > 0` or not) and `maxFailures` (`mf > 0`, as configured), the
loop terminates in exactly one of `DONE`, `FAILED`, `INCOMPLETE`; it is
`DONE` iff the Navigator reported `done = true` at one of the consumed
invocations (which then happened within the step budget, `a < ms`); it is
`FAILED` iff the consecutive-failure counter reached `maxFailures`; and it is
`INCOMPLETE` iff the `maxSteps` budget was exhausted with neither. -/
theorem claim_C1_loop_terminal_states (ms mf : Nat) (se : Bool) (os : List NavOutcome)
    (r : LoopEnd) (c : List NavOutcome) (a b : Nat) (hmf : 0 < mf)
    (hrun : loopGo ms mf se 0 0 os = some (r, c, a, b)) :
    (r = .done ∨ r = .failed ∨ r = .incomplete) ∧
    (r = .done ↔ NavOutcome.success true ∈ c) ∧
    (r = .done → a < ms) ∧
    (r = .failed ↔ mf ≤ b) ∧
    (r = .incomplete ↔ (a = ms ∧ NavOutcome.success true ∉ c ∧ b < mf)) := by
  obtain ⟨h1, h2, h3, h4, h5, _, _⟩ :=
    loopGo_characterization ms mf se hmf os 0 0 hmf (Nat.zero_le ms) r c a b hrun
  exact ⟨h1, h2, h5, h3, h4⟩

/-- Witness for C1: budgets `maxSteps = 2`, `maxFailures = 3`, a run whose
second step reports `done = true`. -/
theorem claim_C1_loop_terminal_states_witness :
    (LoopEnd.done = .done ∨ LoopEnd.done = .failed ∨ LoopEnd.done = .incomplete) ∧
    (LoopEnd.done = .done ↔
      NavOutcome.success true ∈ [NavOutcome.success false, NavOutcome.success true]) ∧
    (LoopEnd.done = .done → 1 < 2) ∧
    (LoopEnd.done = .failed ↔ 3 ≤ 0) ∧
    (LoopEnd.done = .incomplete ↔
      (1 = 2 ∧ NavOutcome.success true ∉ [NavOutcome.success false, NavOutcome.success true] ∧
        0 < 3)) :=
  claim_C1_loop_terminal_states 2 3 true [.success false, .success true] .done
    [.success false, .success true] 1 0 (by decide) (by decide)

/-! ## C4: action-level errors are captured; more than 3 abort the step -/

/-- Unfolding equation: executing a successful action. -/
theorem doMultiActionExec_ok_eq (c r : Nat) (rest : List ActOutcome) :
    doMultiActionExec false c (.ok r :: rest) =
      (.res r :: (doMultiActionExec false c rest).1,
        (doMultiActionExec false c rest).2.1, (doMultiActionExec false c rest).2.2 + 1) := rfl

/-- Unfolding equation: executing an erroring action. -/
theorem doMultiActionExec_err_eq (c : Nat) (m : String) (rest : List ActOutcome) :
    doMultiActionExec false c (.err m :: rest) =
      (if 3 < c + 1 then ([.errRes m true], some "Too many errors in actions", 1)
        else (.errRes m true :: (doMultiActionExec false (c + 1) rest).1,
          (doMultiActionExec false (c + 1) rest).2.1,
          (doMultiActionExec false (c + 1) rest).2.2 + 1)) := rfl

/-- Helper: a batch whose error count (plus the running `errCount`) stays
within 3 runs to completion, capturing every error as a kept result. -/
theorem doMultiActionExec_no_abort (outs : List ActOutcome) :
    ∀ c : Nat, errCountIn outs + c ≤ 3 →
    doMultiActionExec false c outs = (outs.map ActOutcome.toItem, none, outs.length) := by
  induction outs with
  | nil => intro c _; rfl
  | cons o rest ih =>
    intro c hc
    cases o with
    | ok r =>
      have hcnt : errCountIn rest + c ≤ 3 := by
        have : errCountIn (.ok r :: rest) = errCountIn rest := by
          simp [errCountIn, List.countP_cons, ActOutcome.isErr]
        omega
      rw [doMultiActionExec_ok_eq, ih c hcnt]
      rfl
    | err m =>
      have hcnt : errCountIn (.err m :: rest) = errCountIn rest + 1 := by
        simp [errCountIn, List.countP_cons, ActOutcome.isErr]
      rw [doMultiActionExec_err_eq, if_neg (by omega), ih (c + 1) (by omega)]
      rfl

/-- Helper: when the running error count reaches 4 at an erroring action, the
batch aborts there: the error is still recorded, the abort error is thrown,
and no further queued action is executed. -/
theorem doMultiActionExec_abort (pre : List ActOutcome) :
    ∀ c : Nat, errCountIn pre + c = 3 →
    ∀ (m : String) (post : List ActOutcome),
    doMultiActionExec false c (pre ++ .err m :: post) =
      (pre.map ActOutcome.toItem ++ [.errRes m true], some "Too many errors in actions",
        pre.length + 1) := by
  induction pre with
  | nil =>
    intro c hc m post
    have hc3 : c = 3 := by
      simpa [errCountIn] using hc
    subst hc3
    rw [List.nil_append, doMultiActionExec_err_eq, if_pos (by omega)]
    rfl
  | cons o rest ih =>
    intro c hc m post
    cases o with
    | ok r =>
      have hcnt : errCountIn rest + c = 3 := by
        have : errCountIn (.ok r :: rest) = errCountIn rest := by
          simp [errCountIn, List.countP_cons, ActOutcome.isErr]
        omega
      rw [List.cons_append, doMultiActionExec_ok_eq, ih c hcnt m post]
      rfl
    | err m2 =>
      have hcnt : errCountIn (.err m2 :: rest) = errCountIn rest + 1 := by
        simp [errCountIn, List.countP_cons, ActOutcome.isErr]
      rw [List.cons_append, doMultiActionExec_err_eq, if_neg (by omega),
        ih (c + 1) (by omega) m post]
      rfl

/-- C4: within one batch (`paused`/`stopped` unset), every action-level error
is captured as an `ActionResult` carried in the results with
`includeInMemory = true` rather than raised — a batch with at most 3 errors
executes every queued action and throws nothing; as soon as a 4th error
accumulates, the step aborts with `Too many errors in actions` without
executing the remaining queued actions; and in the orchestration loop the
resulting step failure (whether surfaced as a thrown error or as a result
with `out.error`) increments the consecutive-failure counter exactly once. -/
theorem claim_C4_error_batch (outs pre post : List ActOutcome) (m : String)
    (ms mf st cf : Nat) (se : Bool) (rest : List NavOutcome)
    (hst : st < ms) (hcf : cf + 1 < mf) :
    (errCountIn outs ≤ 3 →
      doMultiActionExec false 0 outs = (outs.map ActOutcome.toItem, none, outs.length)) ∧
    (errCountIn pre = 3 →
      doMultiActionExec false 0 (pre ++ .err m :: post) =
        (pre.map ActOutcome.toItem ++ [.errRes m true], some "Too many errors in actions",
          pre.length + 1)) ∧
    (loopGo ms mf se st cf (.thrown "Too many errors in actions" :: rest) =
      (loopGo ms mf se (st + 1) (cf + 1) rest).map
        fun (r, c, a, b) => (r, .thrown "Too many errors in actions" :: c, a, b)) ∧
    (loopGo ms mf se st cf (.errResult m :: rest) =
      (loopGo ms mf se (st + 1) (cf + 1) rest).map
        fun (r, c, a, b) => (r, .errResult m :: c, a, b)) := by
  refine ⟨?_, ?_, ?_, ?_⟩
  · intro h
    exact doMultiActionExec_no_abort outs 0 (by omega)
  · intro h
    exact doMultiActionExec_abort pre 0 (by omega) m post
  · rw [loopGo_thrown_eq, if_pos ⟨hst, by omega⟩,
      show loopSchemaFailure "Too many errors in actions" = false by decide]
    rw [show (se && false && decide (cf = 0)) = false by simp]
    rw [if_neg (by simp), if_neg (by omega)]
  · rw [loopGo_err_eq, if_pos ⟨hst, by omega⟩, if_neg (by omega)]

/-- Witness for C4: a batch of three errors completes with the errors kept;
a batch whose 4th error arrives aborts after it; both step-failure shapes
advance the loop state from `(0, 0)` to `(1, 1)` under `maxSteps = 5`,
`maxFailures = 3`. -/
theorem claim_C4_error_batch_witness :
    doMultiActionExec false 0 [.err "a", .ok 1, .err "b", .err "c"] =
      ([.errRes "a" true, .res 1, .errRes "b" true, .errRes "c" true], none, 4) ∧
    doMultiActionExec false 0 [.err "a", .err "b", .err "c", .err "d", .ok 9] =
      ([.errRes "a" true, .errRes "b" true, .errRes "c" true, .errRes "d" true],
        some "Too many errors in actions", 4) ∧
    loopGo 5 3 true 0 0 [.thrown "Too many errors in actions", .success true] =
      (loopGo 5 3 true 1 1 [.success true]).map
        fun (r, c, a, b) => (r, .thrown "Too many errors in actions" :: c, a, b) := by
  have h := claim_C4_error_batch [.err "a", .ok 1, .err "b", .err "c"]
    [.err "a", .err "b", .err "c"] [.ok 9] "d" 5 3 0 0 true [.success true]
    (by decide) (by decide)
  exact ⟨h.1 (by decide), h.2.1 (by decide), h.2.2.1⟩

/-! ## C2/C3/C8: the DOM snapshot indexer -/

/-- Key membership in an association list. -/
theorem mem_keysOf (m : RawMap) (id : String) :
    id ∈ keysOf m ↔ ∃ v, (id, v) ∈ m := by
  constructor
  · intro h
    rcases List.mem_map.mp h with ⟨⟨k, v⟩, hm, hk⟩
    exact ⟨v, by rwa [← hk]⟩
  · rintro ⟨v, hv⟩
    exact List.mem_map.mpr ⟨(id, v), hv, rfl⟩

/-- `keysOf` distributes over append. -/
theorem keysOf_append (l1 l2 : RawMap) : keysOf (l1 ++ l2) = keysOf l1 ++ keysOf l2 :=
  List.map_append _ l1 l2

/-- Lookup succeeds exactly on present keys. -/
theorem findRaw_isSome_iff (m : RawMap) (id : String) :
    (findRaw m id).isSome ↔ id ∈ keysOf m := by
  induction m with
  | nil => simp [findRaw, keysOf]
  | cons p rest ih =>
    obtain ⟨k, v⟩ := p
    by_cases hk : k = id
    · subst hk
      simp [findRaw, keysOf]
    · rw [show findRaw ((k, v) :: rest) id = findRaw rest id from by
        simp [findRaw, hk]]
      rw [ih]
      simp [keysOf, Ne.symm hk]

/-- A successful lookup is a member of the list. -/
theorem findRaw_mem (m : RawMap) (id : String) (v : RawNode) (h : findRaw m id = some v) :
    (id, v) ∈ m := by
  induction m with
  | nil => exact absurd h (by simp [findRaw])
  | cons p rest ih =>
    obtain ⟨k, w⟩ := p
    by_cases hk : k = id
    · subst hk
      rw [show findRaw ((k, w) :: rest) k = some w from by simp [findRaw]] at h
      obtain rfl : w = v := Option.some.injEq .. ▸ h
      exact List.mem_cons_self _ _
    · rw [show findRaw ((k, w) :: rest) id = findRaw rest id from by simp [findRaw, hk]] at h
      exact List.mem_cons_of_mem _ (ih h)

/-- With distinct keys, membership determines the lookup. -/
theorem mem_findRaw (m : RawMap) (id : String) (v : RawNode) (hnd : NodupKeys m)
    (h : (id, v) ∈ m) : findRaw m id = some v := by
  induction m with
  | nil => exact absurd h (by simp)
  | cons p rest ih =>
    obtain ⟨k, w⟩ := p
    rcases List.mem_cons.mp h with heq | hmem
    · obtain ⟨rfl, rfl⟩ := Prod.mk.injEq .. ▸ heq
      simp [findRaw]
    · have hk : k ≠ id := by
        intro hkk
        subst hkk
        have : k ∈ keysOf rest := (mem_keysOf rest k).mpr ⟨v, hmem⟩
        exact (List.nodup_cons.mp hnd).1 this
      rw [show findRaw ((k, w) :: rest) id = findRaw rest id from by simp [findRaw, hk]]
      exact ih (List.nodup_cons.mp hnd).2 hmem

/-- A permutation with distinct keys preserves all lookups. -/
theorem findRaw_eq_of_perm (m m2 : RawMap) (hp : m.Perm m2) (hnd : NodupKeys m2)
    (id : String) : findRaw m id = findRaw m2 id := by
  have hndm : NodupKeys m := by
    have : (keysOf m).Perm (keysOf m2) := hp.map Prod.fst
    exact this.nodup_iff.mpr hnd
  cases hfm : findRaw m id with
  | some v =>
    exact (mem_findRaw m2 id v hnd (hp.mem_iff.mp (findRaw_mem m id v hfm))).symm
  | none =>
    cases hfm2 : findRaw m2 id with
    | none => rfl
    | some v =>
      have : (id, v) ∈ m := hp.mem_iff.mpr (findRaw_mem m2 id v hfm2)
      rw [mem_findRaw m id v hndm this] at hfm
      exact Option.noConfusion hfm

/-- The head entry of a flat encoding is the root entry. -/
theorem findRaw_flatT_top (t : ATree) : findRaw (flatT t) (topId t) = some (topRaw t) := by
  cases t with
  | text id s => simp [flatT, findRaw, topId, topRaw]
  | elem id tag attrs hI cs => simp [flatT, findRaw, topId, topRaw]

/-- The root entry is a member of the flat encoding. -/
theorem topEntry_mem_flatT (t : ATree) : (topId t, topRaw t) ∈ flatT t :=
  findRaw_mem _ _ _ (findRaw_flatT_top t)

/-- The root id is among the tree ids. -/
theorem topId_mem_treeIds (t : ATree) : topId t ∈ treeIds t :=
  (mem_keysOf _ _).mpr ⟨topRaw t, topEntry_mem_flatT t⟩

/-- Forest encoding distributes over append. -/
theorem flatF_append (ts1 ts2 : List ATree) :
    flatF (ts1 ++ ts2) = flatF ts1 ++ flatF ts2 := by
  induction ts1 with
  | nil => rfl
  | cons t ts ih => simp [flatF, ih]

/-- Membership in a forest encoding. -/
theorem mem_flatF (x : String × RawNode) (ts : List ATree) :
    x ∈ flatF ts ↔ ∃ t ∈ ts, x ∈ flatT t := by
  induction ts with
  | nil => simp [flatF]
  | cons t rest ih =>
    rw [show flatF (t :: rest) = flatT t ++ flatF rest from rfl, List.mem_append, ih]
    simp

/-- Tree ids of an element node. -/
theorem treeIds_elem (id tag : String) (attrs : List (String × String)) (hI : Option Int)
    (cs : List ATree) :
    treeIds (.elem id tag attrs hI cs) = id :: keysOf (flatF cs) := rfl

/-- Every tree has at least one node. -/
theorem sizeT_pos (t : ATree) : 1 ≤ sizeT t := by
  cases t with
  | text id s => simp [sizeT, flatT]
  | elem id tag attrs hI cs => simp [sizeT, flatT]

/-- Size of an element node. -/
theorem sizeT_elem (id tag : String) (attrs : List (String × String)) (hI : Option Int)
    (cs : List ATree) :
    sizeT (.elem id tag attrs hI cs) = 1 + (flatF cs).length := by
  simp [sizeT, flatT, Nat.add_comm]

/-- Forest length is the sum of tree sizes. -/
theorem flatF_length (ts : List ATree) : (flatF ts).length = (ts.map sizeT).sum := by
  induction ts with
  | nil => rfl
  | cons t rest ih =>
    rw [show flatF (t :: rest) = flatT t ++ flatF rest from rfl]
    simp [ih, sizeT]

/-- A forest encoding splits around any member tree. -/
theorem flatF_decomp (c0 : ATree) (cs : List ATree) (hc : c0 ∈ cs) :
    ∃ l1 l2, flatF cs = l1 ++ (flatT c0 ++ l2) := by
  obtain ⟨pre, post, rfl⟩ := List.append_of_mem hc
  refine ⟨flatF pre, flatF post, ?_⟩
  rw [flatF_append]
  rfl

/-- A member subtree's ids are among the forest keys. -/
theorem sub_keys (c0 : ATree) (cs : List ATree) (hc : c0 ∈ cs) (x : String)
    (hx : x ∈ treeIds c0) : x ∈ keysOf (flatF cs) := by
  obtain ⟨l1, l2, hdec⟩ := flatF_decomp c0 cs hc
  rw [hdec, keysOf_append, keysOf_append]
  rcases (mem_keysOf _ _).mp hx with ⟨v, hv⟩
  exact List.mem_append.mpr (Or.inr (List.mem_append.mpr (Or.inl
    ((mem_keysOf _ _).mpr ⟨v, hv⟩))))

/-- A member subtree of a forest with distinct keys has distinct keys. -/
theorem sub_nodup (c0 : ATree) (cs : List ATree) (hc : c0 ∈ cs)
    (hnd : (keysOf (flatF cs)).Nodup) : NodupKeys (flatT c0) := by
  obtain ⟨l1, l2, hdec⟩ := flatF_decomp c0 cs hc
  rw [hdec, keysOf_append, keysOf_append] at hnd
  exact ((List.nodup_append.mp hnd).2.1).of_append_left

/-- A member subtree is no larger than its forest. -/
theorem sub_length (c0 : ATree) (cs : List ATree) (hc : c0 ∈ cs) :
    sizeT c0 ≤ (flatF cs).length := by
  obtain ⟨l1, l2, hdec⟩ := flatF_decomp c0 cs hc
  rw [hdec]
  simp [sizeT]
  omega


/-- A hit in the left part of an append is the hit of the whole. -/
theorem findRaw_append_left (l1 l2 : RawMap) (x : String) (v : RawNode)
    (h : findRaw l1 x = some v) : findRaw (l1 ++ l2) x = some v := by
  induction l1 with
  | nil => exact absurd h (by simp [findRaw])
  | cons p rest ih =>
    obtain ⟨k, w⟩ := p
    by_cases hk : k = x
    · subst hk
      simp only [findRaw, if_pos rfl] at h
      rw [List.cons_append]
      simpa only [findRaw, if_pos rfl] using h
    · simp only [findRaw, if_neg hk] at h
      rw [List.cons_append]
      simpa only [findRaw, if_neg hk] using ih h

/-- A key absent from the left part looks up in the right part. -/
theorem findRaw_append_of_not_mem (l1 l2 : RawMap) (x : String)
    (h : x ∉ keysOf l1) : findRaw (l1 ++ l2) x = findRaw l2 x := by
  induction l1 with
  | nil => rfl
  | cons p rest ih =>
    obtain ⟨k, w⟩ := p
    have hk : k ≠ x := fun hkk => h (by simp [keysOf, hkk])
    rw [List.cons_append]
    simp only [findRaw, if_neg hk]
    exact ih fun hmem => h (by simp [keysOf]; exact Or.inr (by simpa [keysOf] using hmem))

/-- Looking up a member subtree's id in the forest encoding agrees with the
lookup in the subtree's own encoding. -/
theorem sub_findRaw (c0 : ATree) (cs : List ATree) (hc : c0 ∈ cs)
    (hnd : (keysOf (flatF cs)).Nodup) (x : String) (hx : x ∈ treeIds c0) :
    findRaw (flatF cs) x = findRaw (flatT c0) x := by
  obtain ⟨l1, l2, hdec⟩ := flatF_decomp c0 cs hc
  have hnd2 : ((keysOf l1) ++ ((keysOf (flatT c0)) ++ (keysOf l2))).Nodup := by
    rw [← keysOf_append, ← keysOf_append, ← hdec]
    exact hnd
  have hx1 : x ∉ keysOf l1 := fun hmem =>
    (List.disjoint_of_nodup_append hnd2) hmem (List.mem_append.mpr (Or.inl hx))
  rw [hdec, findRaw_append_of_not_mem l1 _ x hx1]
  have hsome : (findRaw (flatT c0) x).isSome := (findRaw_isSome_iff _ _).mpr hx
  cases hfc : findRaw (flatT c0) x with
  | none => rw [hfc] at hsome; simp at hsome
  | some v => exact findRaw_append_left _ _ _ _ hfc

/-- Unfolding equation for the fuelled node count. -/
theorem subtreeCount_succ (m : RawMap) (fuel : Nat) (id : String) :
    subtreeCount m (fuel + 1) id =
      1 + ((wiredChildren m id).map (subtreeCount m fuel)).sum := rfl

/-- The flat encoding of an element node, as a cons. -/
theorem flatT_elem (id tag : String) (attrs : List (String × String)) (hI : Option Int)
    (cs : List ATree) :
    flatT (.elem id tag attrs hI cs) =
      (id, RawNode.elem ⟨tag, attrs, cs.map topId, hI⟩) :: flatF cs := rfl

/-- Helper: on a map agreeing with the flat encoding of a tree `t` with
distinct ids, the fuelled unfolding from the root counts exactly `sizeT t`
nodes, for any fuel of at least `sizeT t`. -/
theorem subtreeCount_flat (n : Nat) :
    ∀ (t : ATree) (m : RawMap), sizeT t ≤ n → NodupKeys (flatT t) →
    (∀ x ∈ treeIds t, findRaw m x = findRaw (flatT t) x) →
    ∀ fuel, sizeT t ≤ fuel → subtreeCount m fuel (topId t) = sizeT t := by
  induction n with
  | zero =>
    intro t m hn _ _ _ _
    exact absurd (Nat.le_trans (sizeT_pos t) hn) (by omega)
  | succ n ih =>
    intro t m hn hnd hag fuel hfuel
    obtain ⟨f, rfl⟩ : ∃ f, fuel = f + 1 := by
      cases fuel with
      | zero => exact absurd (Nat.le_trans (sizeT_pos t) hfuel) (by omega)
      | succ f => exact ⟨f, rfl⟩
    cases t with
    | text id s =>
      have hfind : findRaw m id = some (.text s) := by
        have h1 := hag id (topId_mem_treeIds (.text id s))
        have h0 := findRaw_flatT_top (ATree.text id s)
        simp only [topId, topRaw] at h0
        rw [h1]
        exact h0
      rw [show topId (ATree.text id s) = id from rfl, subtreeCount_succ,
        show wiredChildren m id = [] from by simp [wiredChildren, hfind]]
      simp [sizeT, flatT]
    | elem id tag attrs hI cs =>
      have hfind : findRaw m id = some (RawNode.elem ⟨tag, attrs, cs.map topId, hI⟩) := by
        have h1 := hag id (topId_mem_treeIds (.elem id tag attrs hI cs))
        have h0 := findRaw_flatT_top (ATree.elem id tag attrs hI cs)
        simp only [topId, topRaw] at h0
        rw [h1]
        exact h0
      have hndcons :
          id ∉ keysOf (flatF cs) ∧ (keysOf (flatF cs)).Nodup := by
        have : (id :: keysOf (flatF cs)).Nodup := by
          rw [← treeIds_elem]
          exact hnd
        exact List.nodup_cons.mp this
      have hsub : ∀ c0 ∈ cs, ∀ x ∈ treeIds c0, findRaw m x = findRaw (flatT c0) x := by
        intro c0 hc0 x hx
        have hxkeys : x ∈ keysOf (flatF cs) := sub_keys c0 cs hc0 x hx
        have hxne : id ≠ x := fun heq => hndcons.1 (heq ▸ hxkeys)
        have h1 : findRaw m x = findRaw (flatT (.elem id tag attrs hI cs)) x :=
          hag x (by rw [treeIds_elem]; exact List.mem_cons_of_mem id hxkeys)
        rw [h1, flatT_elem, show findRaw
            ((id, RawNode.elem ⟨tag, attrs, cs.map topId, hI⟩) :: flatF cs) x =
            findRaw (flatF cs) x from by simp [findRaw, hxne]]
        exact sub_findRaw c0 cs hc0 hndcons.2 x hx
      have hwc : wiredChildren m id = cs.map topId := by
        rw [wiredChildren, hfind]
        refine List.filter_eq_self.mpr fun c hcmem => ?_
        rcases List.mem_map.mp hcmem with ⟨c0, hc0, rfl⟩
        have : findRaw m (topId c0) = findRaw (flatT c0) (topId c0) :=
          hsub c0 hc0 (topId c0) (topId_mem_treeIds c0)
        rw [this, findRaw_flatT_top]
        rfl
      have hcount : ∀ c0 ∈ cs, subtreeCount m f (topId c0) = sizeT c0 := by
        intro c0 hc0
        have hlen : sizeT c0 ≤ (flatF cs).length := sub_length c0 cs hc0
        have hst : sizeT (.elem id tag attrs hI cs) = 1 + (flatF cs).length :=
          sizeT_elem id tag attrs hI cs
        exact ih c0 m (by omega) (sub_nodup c0 cs hc0 hndcons.2) (hsub c0 hc0) f (by omega)
      rw [show topId (.elem id tag attrs hI cs) = id from rfl, subtreeCount_succ, hwc,
        List.map_map]
      have hmaps : List.map (subtreeCount m f ∘ topId) cs = List.map sizeT cs :=
        List.map_congr_left fun c0 hc0 => hcount c0 hc0
      rw [hmaps, sizeT_elem, flatF_length]

/-- Helper: in a tree encoding with distinct ids, any id appearing in some
element entry's child list is a tree id and differs from the root id. -/
theorem child_mem_ne_top (n : Nat) :
    ∀ t : ATree, sizeT t ≤ n → NodupKeys (flatT t) →
    ∀ p e, (p, RawNode.elem e) ∈ flatT t → ∀ c ∈ e.children,
    c ∈ treeIds t ∧ c ≠ topId t := by
  induction n with
  | zero =>
    intro t hn
    exact absurd (Nat.le_trans (sizeT_pos t) hn) (by omega)
  | succ n ih =>
    intro t hn hnd p e hpe c hc
    cases t with
    | text id s =>
      rcases List.mem_singleton.mp hpe with heq
      exact absurd (congrArg Prod.snd heq) (by simp)
    | elem id tag attrs hI cs =>
      have hndcons : id ∉ keysOf (flatF cs) ∧ (keysOf (flatF cs)).Nodup := by
        have : (id :: keysOf (flatF cs)).Nodup := by
          rw [← treeIds_elem]
          exact hnd
        exact List.nodup_cons.mp this
      rw [flatT_elem] at hpe
      rcases List.mem_cons.mp hpe with heq | htail
      · have he : e = ⟨tag, attrs, cs.map topId, hI⟩ := by
          have := congrArg Prod.snd heq
          simpa using this
        rw [he] at hc
        rcases List.mem_map.mp hc with ⟨c0, hc0, rfl⟩
        have hck : topId c0 ∈ keysOf (flatF cs) :=
          sub_keys c0 cs hc0 (topId c0) (topId_mem_treeIds c0)
        refine ⟨by rw [treeIds_elem]; exact List.mem_cons_of_mem id hck, ?_⟩
        intro heq2
        rw [show topId (ATree.elem id tag attrs hI cs) = id from rfl] at heq2
        exact hndcons.1 (heq2 ▸ hck)
      · rcases (mem_flatF _ cs).mp htail with ⟨c0, hc0, hin⟩
        have hsz : sizeT c0 ≤ n := by
          have h1 := sub_length c0 cs hc0
          have h2 := sizeT_elem id tag attrs hI cs
          omega
        obtain ⟨hcin, _⟩ := ih c0 hsz (sub_nodup c0 cs hc0 hndcons.2) p e hin c hc
        have hck : c ∈ keysOf (flatF cs) := sub_keys c0 cs hc0 c hcin
        refine ⟨by rw [treeIds_elem]; exact List.mem_cons_of_mem id hck, ?_⟩
        intro heq2
        rw [show topId (ATree.elem id tag attrs hI cs) = id from rfl] at heq2
        exact hndcons.1 (heq2 ▸ hck)

/-- Helper: in a tree encoding, every non-root id appears in some element
entry's child list. -/
theorem nonroot_has_parent (n : Nat) :
    ∀ t : ATree, sizeT t ≤ n →
    ∀ x ∈ treeIds t, x ≠ topId t →
    ∃ p e, (p, RawNode.elem e) ∈ flatT t ∧ x ∈ e.children := by
  induction n with
  | zero =>
    intro t hn
    exact absurd (Nat.le_trans (sizeT_pos t) hn) (by omega)
  | succ n ih =>
    intro t hn x hx hne
    cases t with
    | text id s =>
      have : x = id := by simpa [treeIds, flatT, keysOf] using hx
      exact absurd (this.trans rfl) hne
    | elem id tag attrs hI cs =>
      rw [treeIds_elem] at hx
      have hxid : x ≠ id := fun heq =>
        hne (heq.trans (show id = topId (ATree.elem id tag attrs hI cs) from rfl))
      have hxcs : x ∈ keysOf (flatF cs) := by
        rcases List.mem_cons.mp hx with heq | h
        · exact absurd heq hxid
        · exact h
      rcases (mem_keysOf _ _).mp hxcs with ⟨v, hv⟩
      rcases (mem_flatF _ cs).mp hv with ⟨c0, hc0, hin⟩
      have hxc0 : x ∈ treeIds c0 := (mem_keysOf _ _).mpr ⟨v, hin⟩
      by_cases htop : x = topId c0
      · refine ⟨id, ⟨tag, attrs, cs.map topId, hI⟩, ?_, ?_⟩
        · rw [flatT_elem]
          exact List.mem_cons_self _ _
        · exact htop ▸ List.mem_map.mpr ⟨c0, hc0, rfl⟩
      · have hsz : sizeT c0 ≤ n := by
          have h1 := sub_length c0 cs hc0
          have h2 := sizeT_elem id tag attrs hI cs
          omega
        obtain ⟨p, e, hpe, hxe⟩ := ih c0 hsz x hxc0 htop
        refine ⟨p, e, ?_, hxe⟩
        rw [flatT_elem]
        exact List.mem_cons_of_mem _ ((mem_flatF _ cs).mpr ⟨c0, hc0, hpe⟩)

/-- C2: for a valid flat node map of size `N` (the encoding of a node tree
with distinct ids) whose declared root resolves to an element,
`constructDomTree` succeeds, the wired tree unfolded from the root has
exactly `N` nodes, exactly the declared root has no parent back-reference
(exactly one root), and every element's wired children sequence is exactly
its input child-id list, in order. -/
theorem claim_C2_tree_reconstruction (m : RawMap) (t : ATree)
    (henc : EncodesTree m t) (helem : t.isElem = true) :
    constructDomTree m (topId t) = .ok (topId t, selectorEntries m) ∧
    subtreeCount m m.length (topId t) = m.length ∧
    (∀ x ∈ keysOf m, (hasParentIn m x ↔ x ≠ topId t)) ∧
    (∀ id e, findRaw m id = some (RawNode.elem e) → wiredChildren m id = e.children) := by
  obtain ⟨hnd, hperm⟩ := henc
  have hfr : ∀ x, findRaw m x = findRaw (flatT t) x := fun x =>
    findRaw_eq_of_perm m (flatT t) hperm hnd x
  have hkeys : ∀ x, x ∈ keysOf m ↔ x ∈ treeIds t := fun x =>
    (hperm.map Prod.fst).mem_iff
  have hlen : m.length = sizeT t := hperm.length_eq
  have hroot : findRaw m (topId t) = some (topRaw t) := by
    rw [hfr]
    exact findRaw_flatT_top t
  have hchildren :
      ∀ id e, findRaw m id = some (RawNode.elem e) → wiredChildren m id = e.children := by
    intro id e hfe
    rw [wiredChildren, hfe]
    refine List.filter_eq_self.mpr fun c hcmem => ?_
    have hmem : (id, RawNode.elem e) ∈ flatT t := findRaw_mem _ _ _ ((hfr id) ▸ hfe)
    obtain ⟨hcin, _⟩ :=
      child_mem_ne_top (sizeT t) t (Nat.le_refl _) hnd id e hmem c hcmem
    exact (findRaw_isSome_iff m c).mpr ((hkeys c).mpr hcin)
  refine ⟨?_, ?_, ?_, hchildren⟩
  · cases t with
    | text id s => exact absurd helem (by simp [ATree.isElem])
    | elem id tag attrs hI cs =>
      have : topRaw (ATree.elem id tag attrs hI cs) =
          RawNode.elem ⟨tag, attrs, cs.map topId, hI⟩ := rfl
      rw [constructDomTree, hroot, this]
  · rw [hlen]
    exact subtreeCount_flat (sizeT t) t m (Nat.le_refl _) hnd (fun x _ => hfr x)
      (sizeT t) (Nat.le_refl _)
  · intro x hx
    constructor
    · rintro ⟨p, hp, hpc⟩
      rw [wiredChildren] at hpc
      cases hfp : findRaw m p with
      | none =>
        rw [hfp] at hpc
        exact absurd hpc (by simp)
      | some v =>
        cases v with
        | text s =>
          rw [hfp] at hpc
          exact absurd hpc (by simp)
        | elem e =>
          rw [hfp] at hpc
          have hxe : x ∈ e.children := (List.mem_filter.mp hpc).1
          have hmem : (p, RawNode.elem e) ∈ flatT t := findRaw_mem _ _ _ ((hfr p) ▸ hfp)
          exact (child_mem_ne_top (sizeT t) t (Nat.le_refl _) hnd p e hmem x hxe).2
    · intro hne
      obtain ⟨p, e, hpe, hxe⟩ :=
        nonroot_has_parent (sizeT t) t (Nat.le_refl _) x ((hkeys x).mp hx) hne
      have hfp : findRaw m p = some (RawNode.elem e) := by
        rw [hfr]
        exact mem_findRaw (flatT t) p _ hnd hpe
      refine ⟨p, ?_, ?_⟩
      · exact (hkeys p).mpr ((mem_keysOf _ _).mpr ⟨RawNode.elem e, hpe⟩)
      · rw [hchildren p e hfp]
        exact hxe

/-- Witness for C2: the three-node tree `body("0") [a("1"), text "2"]`
encoded as a flat map, checked node count 3, unique root "0", and the root's
children `["1", "2"]` in input order. -/
theorem claim_C2_tree_reconstruction_witness :
    constructDomTree
        [("0", .elem ⟨"body", [], ["1", "2"], none⟩), ("1", .elem ⟨"a", [], [], some 5⟩),
          ("2", RawNode.text "hi")] "0" =
      .ok ("0", selectorEntries
        [("0", .elem ⟨"body", [], ["1", "2"], none⟩), ("1", .elem ⟨"a", [], [], some 5⟩),
          ("2", RawNode.text "hi")]) ∧
    subtreeCount
        [("0", .elem ⟨"body", [], ["1", "2"], none⟩), ("1", .elem ⟨"a", [], [], some 5⟩),
          ("2", RawNode.text "hi")] 3 "0" = 3 ∧
    wiredChildren
        [("0", .elem ⟨"body", [], ["1", "2"], none⟩), ("1", .elem ⟨"a", [], [], some 5⟩),
          ("2", RawNode.text "hi")] "0" = ["1", "2"] := by
  have h := claim_C2_tree_reconstruction
    [("0", .elem ⟨"body", [], ["1", "2"], none⟩), ("1", .elem ⟨"a", [], [], some 5⟩),
      ("2", RawNode.text "hi")]
    (.elem "0" "body" [] none [.elem "1" "a" [] (some 5) [], .text "2" "hi"])
    ⟨show (keysOf (flatT _)).Nodup by decide, by decide⟩ (by decide)
  exact ⟨h.1, h.2.1, h.2.2.2 "0" ⟨"body", [], ["1", "2"], none⟩ (by decide)⟩

/-- Membership in the selector-map bindings: one binding `(h, id)` per
element entry with highlight index `h`. -/
theorem mem_selectorEntries (m : RawMap) (h : Int) (id : String) :
    (h, id) ∈ selectorEntries m ↔
      ∃ e, (id, RawNode.elem e) ∈ m ∧ e.highlightIndex = some h := by
  constructor
  · intro hmem
    rcases List.mem_filterMap.mp hmem with ⟨⟨k, raw⟩, hkm, hf⟩
    cases raw with
    | text s => exact absurd hf (by simp)
    | elem el =>
      rcases Option.map_eq_some'.mp hf with ⟨hh, hel, heq⟩
      obtain ⟨rfl, rfl⟩ : hh = h ∧ k = id := by
        constructor <;> [exact congrArg Prod.fst heq; exact congrArg Prod.snd heq]
      exact ⟨el, hkm, hel⟩
  · rintro ⟨e, hmem, hh⟩
    exact List.mem_filterMap.mpr ⟨(id, RawNode.elem e), hmem, by simp [hh]⟩

/-- C3: for a valid flat node map of size `N`, the selector map has at most
`N` keys, and it maps a highlight index `h` to the element `id` exactly when
the input map carries an element entry `id` whose highlight index is defined,
non-null, and equal to `h`. -/
theorem claim_C3_selector_map (m : RawMap) (t : ATree) (hv : ValidFlat m t) :
    selSize m ≤ m.length ∧
    ∀ (h : Int) (id : String),
      selLookup m h = some id ↔
        ∃ e, (id, RawNode.elem e) ∈ m ∧ e.highlightIndex = some h := by
  obtain ⟨_, hinj⟩ := hv
  constructor
  · calc selSize m ≤ ((selectorEntries m).map Prod.fst).length :=
          (List.dedup_sublist _).length_le
      _ = (selectorEntries m).length := List.length_map _ _
      _ ≤ m.length := List.length_filterMap_le _ _
  · intro h id
    constructor
    · intro hlk
      rcases Option.map_eq_some'.mp hlk with ⟨⟨h2, id2⟩, hfind, hsnd⟩
      have hid2 : id2 = id := hsnd
      have hpm : (h2, id2) ∈ selectorEntries m :=
        List.mem_reverse.mp (List.mem_of_find?_eq_some hfind)
      have hph : h2 = h := by
        have := List.find?_some hfind
        simpa using this
      rw [← hid2, ← hph]
      exact (mem_selectorEntries m h2 id2).mp hpm
    · rintro ⟨e, hmem, hh⟩
      have hin : (h, id) ∈ (selectorEntries m).reverse :=
        List.mem_reverse.mpr ((mem_selectorEntries m h id).mpr ⟨e, hmem, hh⟩)
      have hissome : ((selectorEntries m).reverse.find? fun p => p.1 == h).isSome :=
        List.find?_isSome.mpr ⟨(h, id), hin, by simp⟩
      rcases Option.isSome_iff_exists.mp hissome with ⟨⟨h2, id2⟩, hfind⟩
      have hph : h2 = h := by
        have := List.find?_some hfind
        simpa using this
      subst hph
      have hpm : (h2, id2) ∈ selectorEntries m :=
        List.mem_reverse.mp (List.mem_of_find?_eq_some hfind)
      rcases (mem_selectorEntries m h2 id2).mp hpm with ⟨e2, hmem2, hh2⟩
      have : id2 = id := hinj id2 id e2 e h2 hmem2 hmem hh2 hh
      rw [selLookup, hfind]
      simp [this]

/-- Witness for C3 at a concrete two-element map with highlight indices 5
and 7. -/
theorem claim_C3_selector_map_witness :
    selSize [("0", RawNode.elem ⟨"body", [], ["1"], some 7⟩),
        ("1", RawNode.elem ⟨"a", [], [], some 5⟩)] ≤ 2 ∧
    (selLookup [("0", RawNode.elem ⟨"body", [], ["1"], some 7⟩),
        ("1", RawNode.elem ⟨"a", [], [], some 5⟩)] 5 = some "1" ↔
      ∃ e, ("1", RawNode.elem e) ∈
          [("0", RawNode.elem ⟨"body", [], ["1"], some 7⟩),
            ("1", RawNode.elem ⟨"a", [], [], some 5⟩)] ∧
        e.highlightIndex = some 5) := by
  have h := claim_C3_selector_map
    [("0", RawNode.elem ⟨"body", [], ["1"], some 7⟩),
      ("1", RawNode.elem ⟨"a", [], [], some 5⟩)]
    (.elem "0" "body" [] (some 7) [.elem "1" "a" [] (some 5) []])
    ⟨⟨show (keysOf (flatT _)).Nodup by decide, by decide⟩, by
      rintro id1 id2 e1 e2 hh hm1 hm2 hh1 hh2
      simp only [List.mem_cons, List.not_mem_nil, or_false, Prod.mk.injEq,
        RawNode.elem.injEq] at hm1 hm2
      rcases hm1 with ⟨rfl, rfl⟩ | ⟨rfl, rfl⟩ <;> rcases hm2 with ⟨rfl, rfl⟩ | ⟨rfl, rfl⟩ <;>
        simp_all
      all_goals omega⟩
  exact ⟨h.1, h.2 5 "1"⟩

/-- C8: `constructDomTree` fails (with the `Failed to parse DOM tree` error,
the spec's `MalformedSnapshot`) exactly when the declared root id is absent
from the flat node map or resolves to a text node; it succeeds — returning
the root and the selector map — exactly when the root id resolves to an
element.  On failure the `Except.error` carries no tree and no selector
map. -/
theorem claim_C8_malformed_root (m : RawMap) (rootId : String) :
    ((∃ sel, constructDomTree m rootId = .ok (rootId, sel)) ↔
      ∃ e, findRaw m rootId = some (RawNode.elem e)) ∧
    (constructDomTree m rootId = .error "Failed to parse DOM tree" ↔
      (findRaw m rootId = none ∨ ∃ s, findRaw m rootId = some (RawNode.text s))) := by
  cases hf : findRaw m rootId with
  | none =>
    constructor
    · constructor
      · rintro ⟨sel, hok⟩
        rw [constructDomTree, hf] at hok
        exact absurd hok (by simp)
      · rintro ⟨e, he⟩
        exact absurd he (by simp)
    · constructor
      · intro _
        exact Or.inl rfl
      · intro _
        rw [constructDomTree, hf]
  | some v =>
    cases v with
    | text s =>
      constructor
      · constructor
        · rintro ⟨sel, hok⟩
          rw [constructDomTree, hf] at hok
          exact absurd hok (by simp)
        · rintro ⟨e, he⟩
          exact absurd he (by simp)
      · constructor
        · intro _
          exact Or.inr ⟨s, rfl⟩
        · intro _
          rw [constructDomTree, hf]
    | elem e =>
      constructor
      · constructor
        · intro _
          exact ⟨e, rfl⟩
        · rintro ⟨e2, _⟩
          exact ⟨selectorEntries m, by rw [constructDomTree, hf]⟩
      · constructor
        · intro herr
          rw [constructDomTree, hf] at herr
          exact absurd herr (by simp)
        · rintro (hnone | ⟨s, hs⟩)
          · exact absurd hnone (by simp)
          · exact absurd hs (by simp)
